import Mathlib

/- Verification of the feature backfill / consolidation pipeline of the
aqi_forecast repository (features/features/backfill.py): the merge /
dedup / sort / fill algorithm, the best-effort live fetch, and the
upload-with-retry wrapper. -/

namespace AqiForecast

/-- A reading row of the combined table.  `ts` is the parsed
`timestamp_utc` (`none` models pandas `NaT`, a timestamp that failed to
parse); `num` holds the values of the numeric-dtype columns in a fixed
order (`none` models a missing value); `other` holds the values of the
non-numeric columns, which the fill step never touches. -/
structure Row where
  ts : Option Nat
  num : List (Option Int)
  other : List (Option String)
deriving DecidableEq, Inhabited

/-- Number of numeric columns of the schema built by the pipeline:
ow_temp, ow_pressure, ow_humidity, ow_wind_speed, ow_wind_deg, ow_clouds,
ow_co, ow_no, ow_no2, ow_o3, ow_so2, ow_pm2_5, ow_pm10, ow_nh3,
aqi_aqicn, hour, day, month, weekday. -/
def numW : Nat := 19

/-- Order used by `sort_values("timestamp_utc")`: timestamps ascending,
with `NaT` (an unparseable timestamp) placed last, as pandas does by
default (`na_position="last"`). -/
def tsLE : Option Nat → Option Nat → Bool
  | _, none => true
  | none, some _ => false
  | some a, some b => decide (a ≤ b)

/-- The sort order lifted to rows. -/
def rowLE (a b : Row) : Prop := tsLE a.ts b.ts = true

instance : DecidableRel rowLE := fun a b => Bool.decEq (tsLE a.ts b.ts) true

/-- The sort order on the timestamp keys themselves. -/
def optLE (a b : Option Nat) : Prop := tsLE a b = true

/-- Model of `drop_duplicates(subset=["timestamp_utc"], keep="last")`
(line 136): a row is kept, in place, iff no later row carries the same
timestamp key; pandas treats `NaT` as equal to `NaT` here, which the
`Option` equality mirrors. -/
def dedupLast : List Row → List Row
  | [] => []
  | r :: rest =>
    if rest.any (fun x => x.ts == r.ts) then dedupLast rest
    else r :: dedupLast rest

/-- Model of `sort_values("timestamp_utc")` (line 137).  The pandas
default quicksort is unstable, but the sort runs after deduplication,
when all timestamp keys are pairwise distinct, so every comparison sort
produces the same list; insertion sort is used. -/
def sortByTs (l : List Row) : List Row := List.insertionSort rowLE l

/-- One cell of forward fill: a present value replaces the carry, a
missing value is replaced by the carried last-seen value. -/
def ffillStep (carry v : Option Int) : Option Int :=
  match v with
  | some x => some x
  | none => carry

/-- Model of `df[numeric_cols].ffill()` (line 141): walk the rows
downward carrying, for every numeric column, the last non-missing value
seen so far. -/
def ffillScan (carry : List (Option Int)) : List Row → List Row
  | [] => []
  | r :: rest =>
    { r with num := List.zipWith ffillStep carry r.num } ::
      ffillScan (List.zipWith ffillStep carry r.num) rest

/-- Model of `df[numeric_cols].fillna(0)` (line 142): numeric values
still missing after the forward fill become 0. -/
def fillZero (rows : List Row) : List Row :=
  rows.map (fun r => { r with num := r.num.map (fun v => some (v.getD 0)) })

/-- One row of the single-scan reformulation of the fill: every cell
becomes its own value when present and the carried value otherwise. -/
def fillRow (prev : List Int) (r : Row) : Row :=
  { r with num := List.zipWith (fun p v => some (Option.getD v p)) prev r.num }

/-- Carry update of the single-scan reformulation. -/
def newPrev (prev : List Int) (r : Row) : List Int :=
  List.zipWith (fun p v => Option.getD v p) prev r.num

/-- Single-scan reformulation of forward-fill followed by zero-fill: the
carry per numeric column is an `Int` starting at 0, which conflates "no
preceding value" with the zero that `fillna(0)` would later write.
`fillZero_ffillScan` proves it equal to the two-stage translation of the
source, and the claim proofs work through this form. -/
def fillNum (prev : List Int) : List Row → List Row
  | [] => []
  | r :: rest => fillRow prev r :: fillNum (newPrev prev r) rest

/-- Last non-missing value of a column segment; used to state the
forward-fill specification ("nearest preceding non-missing value"). -/
def lastSome (l : List (Option Int)) : Option Int :=
  l.foldl ffillStep none

/-- Steps 1-4 of the consolidation (lines 134-137 of backfill.py):
concatenate existing store table, training CSV and live reading in that
order, re-parse timestamps (a no-op on already-parsed rows), deduplicate
by timestamp keeping the last occurrence, sort ascending. -/
def mergedTable (ex tr lv : List Row) : List Row :=
  sortByTs (dedupLast (ex ++ tr ++ lv))

/-- The whole in-memory consolidation (lines 134-142): merge, dedup,
sort, then forward-fill and zero-fill the numeric columns. -/
def consolidate (ex tr lv : List Row) : List Row :=
  fillZero (ffillScan (List.replicate numW none) (mergedTable ex tr lv))

/-- Sub-object `main` of the weather payload, each field optional as the
code reads it with `.get`. -/
structure WMain where
  temp : Option Int
  pressure : Option Int
  humidity : Option Int
deriving DecidableEq

/-- Sub-object `wind` of the weather payload. -/
structure WWind where
  speed : Option Int
  deg : Option Int
deriving DecidableEq

/-- Sub-object `clouds` of the weather payload. -/
structure WClouds where
  all : Option Int
deriving DecidableEq

/-- Weather payload as `fetch_current_weather` delivers it.  A call that
raises, or whose JSON is the empty object, yields Python `{}`, modelled
as `none` at the use site (`not weather` is then true); `some` with
absent sub-objects models a non-empty payload lacking expected fields. -/
structure Weather where
  main : Option WMain
  wind : Option WWind
  clouds : Option WClouds
deriving DecidableEq

/-- The pollutant mapping `iaqi` of the air-quality payload; each entry
is read with `.get(code, {}).get("v")`. -/
structure Iaqi where
  co : Option Int
  no : Option Int
  no2 : Option Int
  o3 : Option Int
  so2 : Option Int
  pm25 : Option Int
  pm10 : Option Int
  nh3 : Option Int
deriving DecidableEq

/-- Air-quality payload as `fetch_current_aqi` delivers it: the `data`
sub-object of the response; a failed call or a response without `data`
yields `{}`, modelled as `none` at the use site. -/
structure Aqi where
  aqi : Option Int
  iaqi : Option Iaqi
deriving DecidableEq

/-- Hour-of-day of an epoch-seconds UTC instant, as Python `now.hour`. -/
def hourOf (s : Nat) : Nat := s / 3600 % 24

/-- Civil-calendar (year, month, day) of a count of days since
1970-01-01, the standard days-to-civil conversion that Python `datetime`
realises for a UTC instant. -/
def civilFromDays (z : Nat) : Nat × Nat × Nat :=
  let z2 := z + 719468
  let era := z2 / 146097
  let doe := z2 % 146097
  let yoe := (doe - doe / 1460 + doe / 36524 - doe / 146096) / 365
  let y := yoe + era * 400
  let doy := doe - (365 * yoe + yoe / 4 - yoe / 100)
  let mp := (5 * doy + 2) / 153
  let d := doy - (153 * mp + 2) / 5 + 1
  let m := if mp < 10 then mp + 3 else mp - 9
  (if m ≤ 2 then y + 1 else y, m, d)

/-- Month of an epoch-seconds UTC instant, as Python `now.month`. -/
def monthOf (s : Nat) : Nat := (civilFromDays (s / 86400)).2.1

/-- Day-of-month of an epoch-seconds UTC instant, as Python `now.day`. -/
def dayOf (s : Nat) : Nat := (civilFromDays (s / 86400)).2.2

/-- Python `now.weekday()`: Monday = 0; 1970-01-01 was a Thursday. -/
def weekdayOf (s : Nat) : Nat := (s / 86400 + 3) % 7

/-- Model of `fetch_live_data` (lines 61-102): when either provider
result is empty the function returns an empty table, otherwise it builds
exactly one row whose timestamp and calendar fields all derive from the
single captured instant `now` (epoch seconds UTC). -/
def fetchLiveData (now : Nat) (w : Option Weather) (a : Option Aqi) :
    List Row :=
  match w, a with
  | some wp, some ap =>
    [{ ts := some now
       num := [wp.main.bind WMain.temp, wp.main.bind WMain.pressure,
               wp.main.bind WMain.humidity, wp.wind.bind WWind.speed,
               wp.wind.bind WWind.deg, wp.clouds.bind WClouds.all,
               ap.iaqi.bind Iaqi.co, ap.iaqi.bind Iaqi.no,
               ap.iaqi.bind Iaqi.no2, ap.iaqi.bind Iaqi.o3,
               ap.iaqi.bind Iaqi.so2, ap.iaqi.bind Iaqi.pm25,
               ap.iaqi.bind Iaqi.pm10, ap.iaqi.bind Iaqi.nh3,
               ap.aqi,
               some (Int.ofNat (hourOf now)), some (Int.ofNat (dayOf now)),
               some (Int.ofNat (monthOf now)),
               some (Int.ofNat (weekdayOf now))]
       other := [] }]
  | _, _ => []

/-- Outcome of the upload retry loop. -/
structure RetryResult where
  attempts : Nat
  sleeps : List Nat
  success : Bool
deriving DecidableEq

/-- Model of the upload loop body (lines 148-159): `for attempt in
range(1, 4)` over the remaining attempt numbers, with `ins attempt`
telling whether `fg.insert` succeeds on that attempt; on failure the
code sleeps 8 seconds if `attempt < 3` and otherwise re-raises. -/
def retryGo (ins : Nat → Bool) : List Nat → RetryResult
  | [] => ⟨0, [], false⟩
  | a :: rest =>
    if ins a then ⟨a, [], true⟩
    else if a < 3 then
      let r := retryGo ins rest
      ⟨r.attempts, 8 :: r.sleeps, r.success⟩
    else ⟨a, [], false⟩

/-- The retry loop run over the attempt numbers 1, 2, 3. -/
def retryInsert (ins : Nat → Bool) : RetryResult := retryGo ins [1, 2, 3]

/-- The two fatal failures a backfill run can raise. -/
inductive BackfillError where
  | missingResource
  | upsertFailed
deriving DecidableEq

/-- Observable outcome of one `backfill()` run: final store table, the
raised error if any, number of insert attempts made, sleeps performed. -/
structure RunOutcome where
  store : List Row
  err : Option BackfillError
  attempts : Nat
  sleeps : List Nat
deriving DecidableEq

/-- Model of one run of `backfill()` (lines 119-159): read the store,
load the training CSV (`csv = none` models the file being absent, which
raises `FileNotFoundError` before any write), fetch the live reading
best-effort, consolidate, and upsert under the retry loop.  On a
successful insert the store holds the consolidated table (the spec
treats the store as conceptually replaced by the merged table); after
three failed attempts the error propagates and the store is untouched. -/
def backfillRun (store : List Row) (csv : Option (List Row)) (now : Nat)
    (w : Option Weather) (a : Option Aqi) (ins : Nat → Bool) : RunOutcome :=
  match csv with
  | none => ⟨store, some .missingResource, 0, []⟩
  | some train =>
    let live := fetchLiveData now w a
    let df := consolidate store train live
    let r := retryInsert ins
    if r.success then ⟨df, none, r.attempts, r.sleeps⟩
    else ⟨store, some .upsertFailed, r.attempts, r.sleeps⟩

/-- Filtering by a timestamp key keeps a matching head row. -/
theorem filter_ts_cons_pos (r : Row) (l : List Row) (k : Option Nat)
    (h : r.ts = k) :
    (r :: l).filter (fun x => x.ts == k) =
      r :: l.filter (fun x => x.ts == k) := by
  simp [List.filter_cons, h]

/-- Filtering by a timestamp key drops a non-matching head row. -/
theorem filter_ts_cons_neg (r : Row) (l : List Row) (k : Option Nat)
    (h : ¬ r.ts = k) :
    (r :: l).filter (fun x => x.ts == k) =
      l.filter (fun x => x.ts == k) := by
  simp [List.filter_cons, h]

/-- The deduplicated table is a sublist of its input. -/
theorem dedupLast_sublist (l : List Row) : List.Sublist (dedupLast l) l := by
  induction l with
  | nil => exact List.Sublist.refl []
  | cons r rest ih =>
    rw [dedupLast]
    by_cases hdup : rest.any (fun x => x.ts == r.ts) = true
    · rw [if_pos hdup]
      exact ih.cons r
    · rw [if_neg hdup]
      exact ih.cons₂ r

/-- Characterisation of `drop_duplicates(keep="last")` through the
timestamp key: for any key, the deduplicated table retains exactly the
last input row carrying that key (and nothing if no input row does). -/
theorem dedupLast_filter (l : List Row) (k : Option Nat) :
    (dedupLast l).filter (fun x => x.ts == k) =
      ((l.filter (fun x => x.ts == k)).getLast?).toList := by
  induction l with
  | nil => rfl
  | cons r rest ih =>
    rw [dedupLast]
    by_cases hdup : rest.any (fun x => x.ts == r.ts) = true
    · rw [if_pos hdup, ih]
      by_cases hk : r.ts = k
      · obtain ⟨x, hx, hxts⟩ := List.any_eq_true.mp hdup
        have hxk : (x.ts == k) = true := by
          have h1 : x.ts = r.ts := by simpa using hxts
          simp [h1, hk]
        have hne : rest.filter (fun x => x.ts == k) ≠ [] := fun h0 =>
          absurd hxk (by simpa using List.filter_eq_nil_iff.mp h0 x hx)
        rw [filter_ts_cons_pos r rest k hk]
        cases hfe : rest.filter (fun x => x.ts == k) with
        | nil => exact absurd hfe hne
        | cons y ys => rw [List.getLast?_cons_cons]
      · rw [filter_ts_cons_neg r rest k hk]
    · rw [if_neg hdup]
      by_cases hk : r.ts = k
      · have hrest : rest.filter (fun x => x.ts == k) = [] := by
          refine List.filter_eq_nil_iff.mpr (fun a ha hak => ?_)
          have hak2 : a.ts = r.ts := by rw [hk]; simpa using hak
          exact absurd (List.any_eq_true.mpr ⟨a, ha, by simp [hak2]⟩) hdup
        have hdrest : (dedupLast rest).filter (fun x => x.ts == k) = [] := by
          rw [ih, hrest]; rfl
        rw [filter_ts_cons_pos r (dedupLast rest) k hk, hdrest,
          filter_ts_cons_pos r rest k hk, hrest]
        rfl
      · rw [filter_ts_cons_neg r (dedupLast rest) k hk,
          filter_ts_cons_neg r rest k hk, ih]

/-- Rows of the deduplicated table carry pairwise distinct timestamp
keys (`NaT` counting as one shared key). -/
theorem dedupLast_pairwise (l : List Row) :
    (dedupLast l).Pairwise (fun a b => a.ts ≠ b.ts) := by
  induction l with
  | nil => exact List.Pairwise.nil
  | cons r rest ih =>
    rw [dedupLast]
    by_cases hdup : rest.any (fun x => x.ts == r.ts) = true
    · rw [if_pos hdup]
      exact ih
    · rw [if_neg hdup]
      refine List.Pairwise.cons (fun b hb hrb => ?_) ih
      have hbmem : b ∈ rest := (dedupLast_sublist rest).subset hb
      exact absurd (List.any_eq_true.mpr ⟨b, hbmem, by simp [hrb]⟩) hdup

/-- Head unfolding of `fillZero`. -/
theorem fillZero_cons (r : Row) (l : List Row) :
    fillZero (r :: l) =
      { r with num := r.num.map (fun v => some (v.getD 0)) } :: fillZero l :=
  rfl

/-- Zero-filling a forward-filled cell list equals the single-scan cell
computation against the zero-defaulted carry. -/
theorem zip_ffill_map_zero (c : List (Option Int)) : ∀ n : List (Option Int),
    (List.zipWith ffillStep c n).map (fun v => some (v.getD 0)) =
      List.zipWith (fun p v => some (Option.getD v p))
        (c.map (fun v => v.getD 0)) n := by
  induction c with
  | nil => intro n; rfl
  | cons a c ih =>
    intro n
    cases n with
    | nil => rfl
    | cons b m =>
      rw [List.zipWith_cons_cons, List.map_cons, List.map_cons,
        List.zipWith_cons_cons, ih]
      cases b <;> rfl

/-- The updated forward-fill carry, zero-defaulted, equals the
single-scan carry update. -/
theorem zip_ffill_getD (c : List (Option Int)) : ∀ n : List (Option Int),
    (List.zipWith ffillStep c n).map (fun v => v.getD 0) =
      List.zipWith (fun p v => Option.getD v p)
        (c.map (fun v => v.getD 0)) n := by
  induction c with
  | nil => intro n; rfl
  | cons a c ih =>
    intro n
    cases n with
    | nil => rfl
    | cons b m =>
      rw [List.zipWith_cons_cons, List.map_cons, List.map_cons,
        List.zipWith_cons_cons, ih]
      cases b <;> rfl

/-- The two-stage source translation (forward fill, then zero fill)
equals the single-scan reformulation with a zero-defaulted carry. -/
theorem fillZero_ffillScan (rows : List Row) : ∀ c : List (Option Int),
    fillZero (ffillScan c rows) = fillNum (c.map (fun v => v.getD 0)) rows := by
  induction rows with
  | nil => intro c; rfl
  | cons r rest ih =>
    intro c
    rw [ffillScan, fillZero_cons, fillNum, ih]
    congr 1
    · rw [fillRow, zip_ffill_map_zero]
    · rw [newPrev, ← zip_ffill_getD]

/-- The consolidation as a single scan starting from an all-zero carry. -/
theorem consolidate_eq (ex tr lv : List Row) :
    consolidate ex tr lv =
      fillNum (List.replicate numW 0) (mergedTable ex tr lv) := by
  rw [consolidate, fillZero_ffillScan, List.map_replicate]
  rfl

/-- The fill step keeps every timestamp, positionally. -/
theorem fillNum_map_ts (rows : List Row) : ∀ prev : List Int,
    (fillNum prev rows).map Row.ts = rows.map Row.ts := by
  induction rows with
  | nil => intro prev; rfl
  | cons r rest ih =>
    intro prev
    rw [fillNum, List.map_cons, List.map_cons, ih]
    rfl

/-- The fill step keeps every non-numeric column, positionally. -/
theorem fillNum_map_other (rows : List Row) : ∀ prev : List Int,
    (fillNum prev rows).map Row.other = rows.map Row.other := by
  induction rows with
  | nil => intro prev; rfl
  | cons r rest ih =>
    intro prev
    rw [fillNum, List.map_cons, List.map_cons, ih]
    rfl

/-- The fill step keeps the number of rows. -/
theorem fillNum_length (rows : List Row) (prev : List Int) :
    (fillNum prev rows).length = rows.length := by
  have h := congrArg List.length (fillNum_map_ts rows prev)
  simpa using h

/-- Totality of the timestamp sort order. -/
theorem tsLE_total (a b : Option Nat) : tsLE a b = true ∨ tsLE b a = true := by
  cases a <;> cases b <;> simp [tsLE] <;> omega

/-- Transitivity of the timestamp sort order. -/
theorem tsLE_trans {a b c : Option Nat} (h1 : tsLE a b = true)
    (h2 : tsLE b c = true) : tsLE a c = true := by
  cases a <;> cases b <;> cases c <;> simp_all [tsLE] <;> omega

/-- Antisymmetry of the timestamp sort order. -/
theorem tsLE_antisymm {a b : Option Nat} (h1 : tsLE a b = true)
    (h2 : tsLE b a = true) : a = b := by
  cases a <;> cases b <;> simp_all [tsLE] <;> omega

instance : IsTotal Row rowLE := ⟨fun a b => tsLE_total a.ts b.ts⟩

instance : IsTrans Row rowLE := ⟨fun _ _ _ => tsLE_trans⟩

instance : IsAntisymm (Option Nat) optLE := ⟨fun _ _ => tsLE_antisymm⟩

/-- Sorting permutes the table. -/
theorem sortByTs_perm (l : List Row) : List.Perm (sortByTs l) l :=
  List.perm_insertionSort rowLE l

/-- Sorting sorts the table by the timestamp order. -/
theorem sortByTs_sorted (l : List Row) : List.Sorted rowLE (sortByTs l) :=
  List.sorted_insertionSort rowLE l

/-- Filtering a table by timestamp key yields a nonempty result exactly
when some row carries the key. -/
theorem filter_ts_ne_nil_iff (l : List Row) (k : Option Nat) :
    l.filter (fun x => x.ts == k) ≠ [] ↔ ∃ r ∈ l, r.ts = k := by
  constructor
  · intro h
    by_contra hno
    push_neg at hno
    exact h (List.filter_eq_nil_iff.mpr
      (fun a ha hak => hno a ha (by simpa using hak)))
  · rintro ⟨r, hr, hrk⟩ h0
    exact (List.filter_eq_nil_iff.mp h0 r hr) (by simp [hrk])

/-- Characterisation of the dedup-and-sort stage through the timestamp
key: for any key, the merged table retains exactly the last input row
carrying that key. -/
theorem merged_filter (l : List Row) (k : Option Nat) :
    (sortByTs (dedupLast l)).filter (fun x => x.ts == k) =
      ((l.filter (fun x => x.ts == k)).getLast?).toList := by
  have hp := (sortByTs_perm (dedupLast l)).filter (fun x => x.ts == k)
  rw [dedupLast_filter] at hp
  cases hgl : (l.filter (fun x => x.ts == k)).getLast? with
  | none =>
    rw [hgl] at hp
    simpa using hp
  | some x =>
    rw [hgl] at hp
    have h1 : (sortByTs (dedupLast l)).filter (fun y => y.ts == k) = [x] :=
      List.perm_singleton.mp (by simpa using hp)
    simpa using h1

/-- Rows of the dedup-and-sort stage carry pairwise distinct keys. -/
theorem merged_pairwise (l : List Row) :
    (sortByTs (dedupLast l)).Pairwise (fun a b => a.ts ≠ b.ts) := by
  refine ((sortByTs_perm (dedupLast l)).pairwise_iff ?_).mpr
    (dedupLast_pairwise l)
  exact fun hxy hEq => hxy hEq.symm

/-- The consolidated output keeps the merged table's timestamps. -/
theorem consolidate_map_ts (ex tr lv : List Row) :
    (consolidate ex tr lv).map Row.ts = (mergedTable ex tr lv).map Row.ts := by
  rw [consolidate_eq, fillNum_map_ts]

/-- The consolidated output keeps the merged table's non-numeric
columns. -/
theorem consolidate_map_other (ex tr lv : List Row) :
    (consolidate ex tr lv).map Row.other =
      (mergedTable ex tr lv).map Row.other := by
  rw [consolidate_eq, fillNum_map_other]

/-- The consolidated output keeps the merged table's row count. -/
theorem consolidate_length (ex tr lv : List Row) :
    (consolidate ex tr lv).length = (mergedTable ex tr lv).length := by
  rw [consolidate_eq, fillNum_length]

/-- C9: the forward-fill and zero-fill step modifies only the numeric
columns: the output has the same row count as the merged (dedup-sorted)
table, and, row by row, the `timestamp_utc` value and every non-numeric
column value — including missing values — are exactly those the row had
before the fill step. -/
theorem fill_touches_only_numeric (ex tr lv : List Row) :
    (consolidate ex tr lv).length = (mergedTable ex tr lv).length ∧
    (consolidate ex tr lv).map Row.ts = (mergedTable ex tr lv).map Row.ts ∧
    (consolidate ex tr lv).map Row.other =
      (mergedTable ex tr lv).map Row.other ∧
    (∀ i : Nat,
      ((consolidate ex tr lv).getD i default).ts =
        ((mergedTable ex tr lv).getD i default).ts ∧
      ((consolidate ex tr lv).getD i default).other =
        ((mergedTable ex tr lv).getD i default).other) := by
  have key : ∀ (rows : List Row) (prev : List Int) (i : Nat),
      ((fillNum prev rows).getD i default).ts = (rows.getD i default).ts ∧
      ((fillNum prev rows).getD i default).other =
        (rows.getD i default).other := by
    intro rows
    induction rows with
    | nil => intro prev i; exact ⟨rfl, rfl⟩
    | cons r rest ih =>
      intro prev i
      cases i with
      | zero => exact ⟨rfl, rfl⟩
      | succ j => exact ih (newPrev prev r) j
  refine ⟨consolidate_length ex tr lv, consolidate_map_ts ex tr lv,
    consolidate_map_other ex tr lv, fun i => ?_⟩
  rw [consolidate_eq]
  exact key (mergedTable ex tr lv) (List.replicate numW 0) i

/-- The timestamp keys of the consolidated output are sorted in the
`NaT`-last ascending order. -/
theorem consolidate_keys_sorted (ex tr lv : List Row) :
    List.Sorted optLE ((consolidate ex tr lv).map Row.ts) := by
  rw [consolidate_map_ts]
  exact (sortByTs_sorted (dedupLast (ex ++ tr ++ lv))).map Row.ts
    (fun _ _ h => h)

/-- C3: adjacent rows of the consolidated output are in ascending order
of `timestamp_utc`: the sort key of row `i` is at most that of row
`i+1`; in particular two parseable adjacent timestamps satisfy `≤`, and
a `NaT` row is never followed by a parseable one. -/
theorem output_adjacent_sorted (ex tr lv : List Row) (i : Nat)
    (h : i + 1 < (consolidate ex tr lv).length) :
    tsLE ((consolidate ex tr lv).getD i default).ts
        ((consolidate ex tr lv).getD (i + 1) default).ts = true ∧
    (∀ a b : Nat, ((consolidate ex tr lv).getD i default).ts = some a →
      ((consolidate ex tr lv).getD (i + 1) default).ts = some b → a ≤ b) ∧
    (((consolidate ex tr lv).getD i default).ts = none →
      ((consolidate ex tr lv).getD (i + 1) default).ts = none) := by
  have hs := consolidate_keys_sorted ex tr lv
  have hi : i < (consolidate ex tr lv).length := Nat.lt_of_succ_lt h
  have hadj := List.pairwise_iff_getElem.mp hs i (i + 1)
    (by simpa using hi) (by simpa using h) (Nat.lt_succ_self i)
  rw [List.getElem_map, List.getElem_map] at hadj
  have e1 : (consolidate ex tr lv).getD i default =
      (consolidate ex tr lv)[i] := List.getD_eq_getElem _ _ hi
  have e2 : (consolidate ex tr lv).getD (i + 1) default =
      (consolidate ex tr lv)[i + 1] := List.getD_eq_getElem _ _ h
  rw [e1, e2]
  refine ⟨hadj, fun a b ha hb => ?_, fun hnone => ?_⟩
  · rw [ha, hb] at hadj
    simpa [optLE, tsLE] using hadj
  · rw [hnone] at hadj
    cases hb : ((consolidate ex tr lv)[i + 1]).ts with
    | none => rfl
    | some b => rw [hb] at hadj; simp [optLE, tsLE] at hadj

/-- C3 witness: a three-row instance, including a `NaT` row, evaluated
at the first adjacent pair. -/
theorem output_adjacent_sorted_witness :
    0 + 1 <
      (consolidate [⟨some 7, [some 1], []⟩]
        [⟨some 3, [none], []⟩, ⟨none, [some 2], []⟩] []).length ∧
    tsLE ((consolidate [⟨some 7, [some 1], []⟩]
        [⟨some 3, [none], []⟩, ⟨none, [some 2], []⟩] []).getD 0 default).ts
      ((consolidate [⟨some 7, [some 1], []⟩]
        [⟨some 3, [none], []⟩, ⟨none, [some 2], []⟩] []).getD 1 default).ts
      = true :=
  ⟨by decide,
    (output_adjacent_sorted [⟨some 7, [some 1], []⟩]
      [⟨some 3, [none], []⟩, ⟨none, [some 2], []⟩] [] 0 (by decide)).1⟩

/-- Folding the forward-fill step from any carry factors through
`lastSome`. -/
theorem foldl_ffill (l : List (Option Int)) : ∀ init : Option Int,
    l.foldl ffillStep init = (lastSome l).elim init some := by
  induction l with
  | nil => intro init; rfl
  | cons x l ih =>
    intro init
    rw [List.foldl_cons, ih]
    have hL : lastSome (x :: l) = (lastSome l).elim (ffillStep none x) some := by
      have h0 : lastSome (x :: l) = List.foldl ffillStep (ffillStep none x) l :=
        rfl
      rw [h0, ih]
    rw [hL]
    cases hl : lastSome l with
    | some v => rfl
    | none => cases x <;> rfl

/-- Peeling the head off a `lastSome` with a default. -/
theorem lastSome_cons_getD (x : Option Int) (l : List (Option Int)) (d : Int) :
    (lastSome (x :: l)).getD d = (lastSome l).getD (x.getD d) := by
  have h0 : lastSome (x :: l) = List.foldl ffillStep (ffillStep none x) l := rfl
  rw [h0, foldl_ffill]
  cases hl : lastSome l with
  | some v => rfl
  | none => cases x <;> rfl

/-- Appending one cell to a `lastSome` segment. -/
theorem lastSome_concat (l : List (Option Int)) (x : Option Int) :
    lastSome (l ++ [x]) = ffillStep (lastSome l) x := by
  have h0 : lastSome (l ++ [x]) = List.foldl ffillStep none (l ++ [x]) := rfl
  rw [h0, List.foldl_append]
  rfl

/-- Cell lookup of the single-scan fill row. -/
theorem zip_fillRow_getD : ∀ (prev : List Int) (n : List (Option Int))
    (k : Nat), k < prev.length → k < n.length →
    (List.zipWith (fun p v => some (Option.getD v p)) prev n).getD k none =
      some ((n.getD k none).getD (prev.getD k 0)) := by
  intro prev
  induction prev with
  | nil => intro n k h1 _; simp at h1
  | cons p ps ih =>
    intro n k h1 h2
    cases n with
    | nil => simp at h2
    | cons v vs =>
      cases k with
      | zero => rfl
      | succ j => exact ih vs j (by simpa using h1) (by simpa using h2)

/-- Cell lookup of the single-scan carry update. -/
theorem zip_newPrev_getD : ∀ (prev : List Int) (n : List (Option Int))
    (k : Nat), k < prev.length → k < n.length →
    (List.zipWith (fun p v => Option.getD v p) prev n).getD k 0 =
      (n.getD k none).getD (prev.getD k 0) := by
  intro prev
  induction prev with
  | nil => intro n k h1 _; simp at h1
  | cons p ps ih =>
    intro n k h1 h2
    cases n with
    | nil => simp at h2
    | cons v vs =>
      cases k with
      | zero => rfl
      | succ j => exact ih vs j (by simpa using h1) (by simpa using h2)

/-- The carry keeps its width across a row whose cell list fits it. -/
theorem newPrev_length (prev : List Int) (r : Row)
    (h : r.num.length = prev.length) :
    (newPrev prev r).length = prev.length := by
  simp [newPrev, h]

/-- Value of every cell of the single-scan fill: the cell's own value
when present, otherwise the last non-missing value above it in the same
column, defaulting to the initial carry. -/
theorem fillNum_val (rows : List Row) : ∀ (prev : List Int) (i k : Nat),
    (∀ r ∈ rows, r.num.length = prev.length) → i < rows.length →
    k < prev.length →
    ((fillNum prev rows).getD i default).num.getD k none =
      some ((lastSome ((rows.take (i + 1)).map
        (fun r => r.num.getD k none))).getD (prev.getD k 0)) := by
  induction rows with
  | nil => intro prev i k _ hi _; simp at hi
  | cons r rest ih =>
    intro prev i k hwf hi hk
    have hrlen : r.num.length = prev.length := hwf r (List.mem_cons_self r rest)
    cases i with
    | zero =>
      have hL : ((fillNum prev (r :: rest)).getD 0 default).num.getD k none =
          some ((r.num.getD k none).getD (prev.getD k 0)) := by
        have h0 : ((fillNum prev (r :: rest)).getD 0 default).num =
            List.zipWith (fun p v => some (Option.getD v p)) prev r.num := rfl
        rw [h0]
        exact zip_fillRow_getD prev r.num k hk (by rw [hrlen]; exact hk)
      rw [hL]
      have htake : ((r :: rest).take 1).map (fun x => x.num.getD k none) =
          [r.num.getD k none] := rfl
      rw [htake]
      cases hx : r.num.getD k none <;> rfl
    | succ j =>
      have hwfrest : ∀ x ∈ rest, x.num.length = (newPrev prev r).length := by
        intro x hx
        rw [newPrev_length prev r hrlen]
        exact hwf x (List.mem_cons_of_mem _ hx)
      have hk2 : k < (newPrev prev r).length := by
        rw [newPrev_length prev r hrlen]; exact hk
      have hIH := ih (newPrev prev r) j k hwfrest (by simpa using hi) hk2
      have hshift : ((fillNum prev (r :: rest)).getD (j + 1) default) =
          ((fillNum (newPrev prev r) rest).getD j default) := rfl
      rw [hshift, hIH]
      have htake : (r :: rest).take (j + 2) = r :: rest.take (j + 1) := rfl
      rw [htake, List.map_cons, lastSome_cons_getD]
      have hcarry : (newPrev prev r).getD k 0 =
          (r.num.getD k none).getD (prev.getD k 0) := by
        have h0 : newPrev prev r =
            List.zipWith (fun p v => Option.getD v p) prev r.num := rfl
        rw [h0]
        exact zip_newPrev_getD prev r.num k hk (by rw [hrlen]; exact hk)
      rw [hcarry]

/-- Every row of the merged table comes from the concatenated input. -/
theorem merged_mem (ex tr lv : List Row) {r : Row}
    (h : r ∈ mergedTable ex tr lv) : r ∈ ex ++ tr ++ lv :=
  (dedupLast_sublist (ex ++ tr ++ lv)).subset
    ((sortByTs_perm (dedupLast (ex ++ tr ++ lv))).subset h)

/-- C2: after consolidation no numeric cell is missing; a cell whose
value was present after the merge keeps it, and a cell that was missing
after the merge equals the nearest preceding non-missing value of its
column in sorted order, or zero when no preceding value exists (the
`lastSome`-with-default-0 reading covers both sub-cases at once). -/
theorem fill_completeness (ex tr lv : List Row)
    (hwf : ∀ r ∈ ex ++ tr ++ lv, r.num.length = numW) (i k : Nat)
    (hi : i < (mergedTable ex tr lv).length) (hk : k < numW) :
    ((((consolidate ex tr lv).getD i default).num.getD k none).isSome
      = true) ∧
    (∀ v : Int,
      ((mergedTable ex tr lv).getD i default).num.getD k none = some v →
      ((consolidate ex tr lv).getD i default).num.getD k none = some v) ∧
    (((mergedTable ex tr lv).getD i default).num.getD k none = none →
      ((consolidate ex tr lv).getD i default).num.getD k none =
        some ((lastSome (((mergedTable ex tr lv).take i).map
          (fun r => r.num.getD k none))).getD 0)) := by
  have hwfm : ∀ r ∈ mergedTable ex tr lv,
      r.num.length = (List.replicate numW (0 : Int)).length := by
    intro r hr
    rw [List.length_replicate]
    exact hwf r (merged_mem ex tr lv hr)
  have hk2 : k < (List.replicate numW (0 : Int)).length := by
    rw [List.length_replicate]; exact hk
  have hv := fillNum_val (mergedTable ex tr lv) (List.replicate numW 0) i k
    hwfm hi hk2
  have hzero : (List.replicate numW (0 : Int)).getD k 0 = 0 := by
    rw [List.getD_eq_getElem _ _ hk2, List.getElem_replicate]
  rw [hzero] at hv
  have hsplit : (mergedTable ex tr lv).take (i + 1) =
      (mergedTable ex tr lv).take i ++
        [(mergedTable ex tr lv).getD i default] := by
    rw [List.take_succ, List.getElem?_eq_getElem hi,
      List.getD_eq_getElem _ _ hi]
    rfl
  rw [hsplit, List.map_append] at hv
  have hmapone : ([(mergedTable ex tr lv).getD i default]).map
      (fun r => r.num.getD k none) =
      [((mergedTable ex tr lv).getD i default).num.getD k none] := rfl
  rw [hmapone, lastSome_concat] at hv
  rw [consolidate_eq]
  refine ⟨?_, ?_, ?_⟩
  · rw [hv]; rfl
  · intro v hcell
    rw [hv, hcell]
    rfl
  · intro hcell
    rw [hv, hcell]
    rfl

/-- C2 witness: a two-row table where the second row's first column is
missing and gets the first row's value, evaluated at row 1, column 0. -/
theorem fill_completeness_witness :
    ((consolidate [⟨some 1, some 5 :: List.replicate 18 none, []⟩]
        [⟨some 2, List.replicate 19 none, []⟩] []).getD 1
          default).num.getD 0 none = some 5 := by
  have h := fill_completeness
    [⟨some 1, some 5 :: List.replicate 18 none, []⟩]
    [⟨some 2, List.replicate 19 none, []⟩] []
    (by intro r hr; fin_cases hr <;> rfl) 1 0 (by decide) (by decide)
  have h3 := h.2.2 (by decide)
  rw [h3]
  decide

/-- Counting rows by timestamp key only depends on the key column. -/
theorem countP_ts_eq_of_map_ts {l1 l2 : List Row} (k : Option Nat)
    (h : l1.map Row.ts = l2.map Row.ts) :
    l1.countP (fun x => x.ts == k) = l2.countP (fun x => x.ts == k) := by
  have h1 := congrArg (List.countP (fun o => o == k)) h
  rw [List.countP_map, List.countP_map] at h1
  simpa [Function.comp] using h1

/-- For any timestamp key supplied by some input row, the consolidated
output holds exactly one row with that key, and the merged (pre-fill)
table's unique row with that key is the last input occurrence. -/
theorem merged_key_unique (ex tr lv : List Row) (k : Option Nat)
    (h : ∃ r ∈ ex ++ tr ++ lv, r.ts = k) :
    (consolidate ex tr lv).countP (fun x => x.ts == k) = 1 ∧
    (mergedTable ex tr lv).filter (fun x => x.ts == k) =
      (((ex ++ tr ++ lv).filter (fun x => x.ts == k)).getLast?).toList := by
  have hfil : (mergedTable ex tr lv).filter (fun x => x.ts == k) =
      (((ex ++ tr ++ lv).filter (fun x => x.ts == k)).getLast?).toList := by
    rw [mergedTable]
    exact merged_filter (ex ++ tr ++ lv) k
  have hne : (ex ++ tr ++ lv).filter (fun x => x.ts == k) ≠ [] :=
    (filter_ts_ne_nil_iff _ _).mpr h
  obtain ⟨x, hx⟩ : ∃ x,
      ((ex ++ tr ++ lv).filter (fun x => x.ts == k)).getLast? = some x := by
    cases hgl : ((ex ++ tr ++ lv).filter (fun x => x.ts == k)).getLast? with
    | none => exact absurd (List.getLast?_eq_none_iff.mp hgl) hne
    | some x => exact ⟨x, rfl⟩
  have hmc : (mergedTable ex tr lv).countP (fun x => x.ts == k) = 1 := by
    rw [List.countP_eq_length_filter, hfil, hx]
    rfl
  exact ⟨(countP_ts_eq_of_map_ts k (consolidate_map_ts ex tr lv)).trans hmc,
    hfil⟩

/-- C1 counterexample: the store holds a fully populated row at
timestamp 5, the training CSV a row at the same timestamp whose first
numeric column is missing.  The output keeps exactly one row at
timestamp 5, but that row's values do not equal the last-ordered
occurrence (the CSV row): the fill step replaced its missing cell. -/
theorem dedup_last_wins_cex :
    (consolidate [⟨some 5, List.replicate 19 (some 1), []⟩]
        [⟨some 5, none :: List.replicate 18 (some 2), []⟩] []).length = 1 ∧
    ((consolidate [⟨some 5, List.replicate 19 (some 1), []⟩]
        [⟨some 5, none :: List.replicate 18 (some 2), []⟩] []).getD 0
          default).ts = some 5 ∧
    ((consolidate [⟨some 5, List.replicate 19 (some 1), []⟩]
        [⟨some 5, none :: List.replicate 18 (some 2), []⟩] []).getD 0
          default) ≠ ⟨some 5, none :: List.replicate 18 (some 2), []⟩ := by
  refine ⟨by decide, by decide, by decide⟩

/-- C1 (amended): for every timestamp shared by input rows, the
consolidated output holds exactly one row with that timestamp, and the
merged table's row with that timestamp — its values before the
gap-filling step — equals the occurrence that comes last in the
concatenation order store, training CSV, live. -/
theorem dedup_last_wins (ex tr lv : List Row) (t : Nat)
    (h : ∃ r ∈ ex ++ tr ++ lv, r.ts = some t) :
    (consolidate ex tr lv).countP (fun x => x.ts == some t) = 1 ∧
    (mergedTable ex tr lv).filter (fun x => x.ts == some t) =
      (((ex ++ tr ++ lv).filter (fun x => x.ts == some t)).getLast?).toList :=
  merged_key_unique ex tr lv (some t) h

/-- C1 witness: store and CSV rows share timestamp 5 and the live row
overrides neither; the merged row at 5 is the CSV (later) occurrence. -/
theorem dedup_last_wins_witness :
    (consolidate [⟨some 5, [some 1], []⟩] [⟨some 5, [some 2], []⟩]
        [⟨some 9, [some 3], []⟩]).countP (fun x => x.ts == some 5) = 1 ∧
    (mergedTable [⟨some 5, [some 1], []⟩] [⟨some 5, [some 2], []⟩]
        [⟨some 9, [some 3], []⟩]).filter (fun x => x.ts == some 5) =
      ((([⟨some 5, [some 1], []⟩] ++ [⟨some 5, [some 2], []⟩] ++
        [⟨some 9, [some 3], []⟩] : List Row).filter
          (fun x => x.ts == some 5)).getLast?).toList :=
  dedup_last_wins [⟨some 5, [some 1], []⟩] [⟨some 5, [some 2], []⟩]
    [⟨some 9, [some 3], []⟩] 5 ⟨⟨some 5, [some 1], []⟩, by decide, rfl⟩

/-- C5 counterexample: two training-CSV rows with unparseable
timestamps (`NaT`) do not both pass through: pandas deduplicates `NaT`
against `NaT`, so only the last one survives. -/
theorem nat_rows_cex :
    (consolidate []
        [⟨none, List.replicate 19 (some 1), []⟩,
         ⟨none, List.replicate 19 (some 2), []⟩] []).length = 1 ∧
    ((consolidate []
        [⟨none, List.replicate 19 (some 1), []⟩,
         ⟨none, List.replicate 19 (some 2), []⟩] []).getD 0
          default).num.getD 0 none = some 2 := by
  refine ⟨by decide, by decide⟩

/-- C5 (amended): rows with unparseable timestamps take part in the
deduplication pass with `NaT` as a shared key: among all such rows only
the last occurrence in concatenation order is kept, and that survivor is
retained in the consolidated output (exactly one `NaT` row remains). -/
theorem nat_rows_retained (ex tr lv : List Row)
    (h : ∃ r ∈ ex ++ tr ++ lv, r.ts = none) :
    (consolidate ex tr lv).countP (fun x => x.ts == none) = 1 ∧
    (mergedTable ex tr lv).filter (fun x => x.ts == none) =
      (((ex ++ tr ++ lv).filter (fun x => x.ts == none)).getLast?).toList :=
  merged_key_unique ex tr lv none h

/-- C5 witness: one store row with a parseable timestamp and two `NaT`
CSV rows; exactly one `NaT` row remains, the later CSV one. -/
theorem nat_rows_retained_witness :
    (consolidate [⟨some 3, [some 7], []⟩]
        [⟨none, [some 1], []⟩, ⟨none, [some 2], []⟩] []).countP
      (fun x => x.ts == none) = 1 ∧
    (mergedTable [⟨some 3, [some 7], []⟩]
        [⟨none, [some 1], []⟩, ⟨none, [some 2], []⟩] []).filter
      (fun x => x.ts == none) =
      ((([⟨some 3, [some 7], []⟩] ++
        [⟨none, [some 1], []⟩, ⟨none, [some 2], []⟩] ++ [] : List Row).filter
          (fun x => x.ts == none)).getLast?).toList :=
  nat_rows_retained [⟨some 3, [some 7], []⟩]
    [⟨none, [some 1], []⟩, ⟨none, [some 2], []⟩] []
    ⟨⟨none, [some 1], []⟩, by decide, rfl⟩

/-- Re-filling an already-filled cell list is a no-op. -/
theorem zip_fill_idem (prev : List Int) : ∀ n : List (Option Int),
    List.zipWith (fun p v => some (Option.getD v p)) prev
        (List.zipWith (fun p v => some (Option.getD v p)) prev n) =
      List.zipWith (fun p v => some (Option.getD v p)) prev n := by
  induction prev with
  | nil => intro n; rfl
  | cons p ps ih =>
    intro n
    cases n with
    | nil => rfl
    | cons v vs =>
      simp only [List.zipWith_cons_cons]
      rw [ih]
      rfl

/-- The carry update sees through an already-filled cell list. -/
theorem zip_carry_idem (prev : List Int) : ∀ n : List (Option Int),
    List.zipWith (fun p v => Option.getD v p) prev
        (List.zipWith (fun p v => some (Option.getD v p)) prev n) =
      List.zipWith (fun p v => Option.getD v p) prev n := by
  induction prev with
  | nil => intro n; rfl
  | cons p ps ih =>
    intro n
    cases n with
    | nil => rfl
    | cons v vs =>
      simp only [List.zipWith_cons_cons]
      rw [ih]
      rfl

/-- A filled row is a fixpoint of the row fill. -/
theorem fillRow_fillRow (prev : List Int) (r : Row) :
    fillRow prev (fillRow prev r) = fillRow prev r := by
  have h1 : fillRow prev (fillRow prev r) =
      ⟨r.ts, List.zipWith (fun p v => some (Option.getD v p)) prev
        (List.zipWith (fun p v => some (Option.getD v p)) prev r.num),
        r.other⟩ := rfl
  have h2 : fillRow prev r =
      ⟨r.ts, List.zipWith (fun p v => some (Option.getD v p)) prev r.num,
        r.other⟩ := rfl
  rw [h1, h2, zip_fill_idem]

/-- A filled row updates the carry exactly as the raw row does. -/
theorem newPrev_fillRow (prev : List Int) (r : Row) :
    newPrev prev (fillRow prev r) = newPrev prev r := by
  have h1 : newPrev prev (fillRow prev r) =
      List.zipWith (fun p v => Option.getD v p) prev
        (List.zipWith (fun p v => some (Option.getD v p)) prev r.num) := rfl
  have h2 : newPrev prev r =
      List.zipWith (fun p v => Option.getD v p) prev r.num := rfl
  rw [h1, h2, zip_carry_idem]

/-- Mixing lemma: feeding the fill a table whose every row is either the
original raw row or its already-filled version (at the matching
position) produces the same output as filling the raw table. -/
theorem fillNum_mix (m1 : List Row) : ∀ (m2 : List Row) (prev : List Int),
    m2.length = m1.length →
    (∀ i, i < m1.length →
      m2.getD i default = m1.getD i default ∨
      m2.getD i default = (fillNum prev m1).getD i default) →
    fillNum prev m2 = fillNum prev m1 := by
  induction m1 with
  | nil =>
    intro m2 prev hlen _
    rw [List.length_nil] at hlen
    rw [List.length_eq_zero.mp hlen]
  | cons r1 t1 ih =>
    intro m2 prev hlen hpt
    cases m2 with
    | nil => simp at hlen
    | cons r2 t2 =>
      have hlen2 : t2.length = t1.length := by simpa using hlen
      have hpt2 : ∀ i, i < t1.length →
          t2.getD i default = t1.getD i default ∨
          t2.getD i default =
            (fillNum (newPrev prev r1) t1).getD i default := by
        intro i hi
        exact hpt (i + 1) (by simpa using Nat.succ_lt_succ hi)
      rcases hpt 0 (by simp) with h0 | h0
      · have h0h : r2 = r1 := h0
        rw [h0h, fillNum, fillNum, ih t2 (newPrev prev r1) hlen2 hpt2]
      · have h0h : r2 = fillRow prev r1 := h0
        subst h0h
        rw [fillNum, fillNum, fillRow_fillRow, newPrev_fillRow,
          ih t2 (newPrev prev r1) hlen2 hpt2]

/-- In a table with pairwise distinct keys, filtering by a member's key
returns exactly that member. -/
theorem filter_key_of_pairwise (l : List Row)
    (hp : l.Pairwise (fun a b => a.ts ≠ b.ts)) (x : Row) (hx : x ∈ l) :
    l.filter (fun y => y.ts == x.ts) = [x] := by
  induction hp with
  | nil => cases hx
  | @cons a m hhead htail ih =>
    rcases List.mem_cons.mp hx with h | h
    · subst h
      rw [filter_ts_cons_pos x m x.ts rfl]
      have h0 : m.filter (fun y => y.ts == x.ts) = [] :=
        List.filter_eq_nil_iff.mpr (fun b hb hbk =>
          hhead b hb (Eq.symm (by simpa using hbk)))
      rw [h0]
    · have hax : a.ts ≠ x.ts := hhead x h
      rw [filter_ts_cons_neg a m x.ts hax]
      exact ih h

/-- `getLast?` of an append with a nonempty right part. -/
theorem getLast?_append_right {l1 l2 : List Row} (h : l2 ≠ []) :
    (l1 ++ l2).getLast? = l2.getLast? := by
  rw [List.getLast?_append]
  cases hgl : l2.getLast? with
  | none => exact absurd (List.getLast?_eq_none_iff.mp hgl) h
  | some x => rfl

/-- A key appears in the key column iff filtering by it is nonempty. -/
theorem mem_map_ts_iff_filter (l : List Row) (k : Option Nat) :
    k ∈ l.map Row.ts ↔ l.filter (fun x => x.ts == k) ≠ [] := by
  rw [filter_ts_ne_nil_iff]
  simp [List.mem_map]

/-- Dedup-and-sort changes no key membership. -/
theorem merged_keys_mem (l : List Row) (k : Option Nat) :
    k ∈ (sortByTs (dedupLast l)).map Row.ts ↔ k ∈ l.map Row.ts := by
  rw [mem_map_ts_iff_filter, mem_map_ts_iff_filter, merged_filter]
  constructor
  · intro h h0
    rw [h0] at h
    exact h rfl
  · intro h
    cases hgl : (l.filter (fun x => x.ts == k)).getLast? with
    | none => exact absurd (List.getLast?_eq_none_iff.mp hgl) h
    | some x => simp

/-- The key column of the dedup-and-sort stage is sorted. -/
theorem merged_keys_sorted (l : List Row) :
    List.Sorted optLE ((sortByTs (dedupLast l)).map Row.ts) :=
  (sortByTs_sorted (dedupLast l)).map Row.ts (fun _ _ h => h)

/-- The key column of the dedup-and-sort stage has no duplicates. -/
theorem merged_keys_nodup (l : List Row) :
    ((sortByTs (dedupLast l)).map Row.ts).Nodup :=
  (merged_pairwise l).map Row.ts (fun _ _ h => h)

/-- The consolidated output has pairwise distinct keys. -/
theorem consolidate_pairwise (ex tr lv : List Row) :
    (consolidate ex tr lv).Pairwise (fun a b => a.ts ≠ b.ts) := by
  have h1 : ((consolidate ex tr lv).map Row.ts).Nodup := by
    rw [consolidate_map_ts]
    exact merged_keys_nodup (ex ++ tr ++ lv)
  exact List.pairwise_map.mp h1

/-- Key lookup through the mapped key column. -/
theorem getD_map_ts (l : List Row) (i : Nat) (h : i < l.length) :
    (l.map Row.ts).getD i none = (l.getD i default).ts := by
  rw [List.getD_eq_getElem _ _ (by simpa using h),
    List.getD_eq_getElem _ _ h, List.getElem_map]

/-- A positional lookup with a default is a member when in bounds. -/
theorem getD_mem (l : List Row) (i : Nat) (h : i < l.length) :
    l.getD i default ∈ l := by
  rw [List.getD_eq_getElem _ _ h]
  exact List.getElem_mem h

set_option maxHeartbeats 1000000 in
/-- Re-merging the consolidated output with the same training CSV and no
live reading reproduces the same key column. -/
theorem idem_keys_eq (ex tr lv : List Row) :
    (mergedTable (consolidate ex tr lv) tr []).map Row.ts =
      (mergedTable ex tr lv).map Row.ts := by
  have hs2 : List.Sorted optLE
      ((mergedTable (consolidate ex tr lv) tr []).map Row.ts) := by
    simp only [mergedTable]
    exact merged_keys_sorted _
  have hs1 : List.Sorted optLE ((mergedTable ex tr lv).map Row.ts) := by
    simp only [mergedTable]
    exact merged_keys_sorted _
  have hn2 :
      ((mergedTable (consolidate ex tr lv) tr []).map Row.ts).Nodup := by
    simp only [mergedTable]
    exact merged_keys_nodup _
  have hn1 : ((mergedTable ex tr lv).map Row.ts).Nodup := by
    simp only [mergedTable]
    exact merged_keys_nodup _
  refine List.eq_of_perm_of_sorted
    ((List.perm_ext_iff_of_nodup hn2 hn1).mpr ?_) hs2 hs1
  intro k
  have hout : k ∈ (consolidate ex tr lv).map Row.ts ↔
      k ∈ ex.map Row.ts ∨ k ∈ tr.map Row.ts ∨ k ∈ lv.map Row.ts := by
    rw [consolidate_map_ts]
    simp only [mergedTable]
    rw [merged_keys_mem]
    simp [List.map_append, List.mem_append]
  simp only [mergedTable]
  rw [merged_keys_mem, merged_keys_mem]
  simp only [List.map_append, List.mem_append, List.map_nil,
    List.not_mem_nil, or_false]
  rw [hout]
  tauto

/-- Positionally, the re-merged table holds either the original raw
merged row (when the key comes from the training CSV, which wins the
re-run dedup exactly as it won the first, thanks to the live reading not
colliding with CSV keys) or the first run's filled output row. -/
theorem idem_pointwise (ex tr lv : List Row)
    (hdisj : ∀ r ∈ lv, ∀ q ∈ tr, r.ts ≠ q.ts) (i : Nat)
    (hi : i < (mergedTable ex tr lv).length) :
    (mergedTable (consolidate ex tr lv) tr []).getD i default =
      (mergedTable ex tr lv).getD i default ∨
    (mergedTable (consolidate ex tr lv) tr []).getD i default =
      (consolidate ex tr lv).getD i default := by
  have hkeys := idem_keys_eq ex tr lv
  have hlen2 : (mergedTable (consolidate ex tr lv) tr []).length =
      (mergedTable ex tr lv).length := by
    have h := congrArg List.length hkeys
    simpa using h
  have hi2 : i < (mergedTable (consolidate ex tr lv) tr []).length := by
    rw [hlen2]; exact hi
  have hkey2 : ((mergedTable (consolidate ex tr lv) tr []).getD i
      default).ts = ((mergedTable ex tr lv).getD i default).ts := by
    rw [← getD_map_ts _ _ hi2, ← getD_map_ts _ _ hi, hkeys]
  have hlenO : (consolidate ex tr lv).length =
      (mergedTable ex tr lv).length := consolidate_length ex tr lv
  have hiO : i < (consolidate ex tr lv).length := by rw [hlenO]; exact hi
  have hkeyO : ((consolidate ex tr lv).getD i default).ts =
      ((mergedTable ex tr lv).getD i default).ts := by
    rw [← getD_map_ts _ _ hiO, ← getD_map_ts _ _ hi, consolidate_map_ts]
  set k := ((mergedTable ex tr lv).getD i default).ts with hkdef
  by_cases htr : k ∈ tr.map Row.ts
  · left
    have hftr : tr.filter (fun x => x.ts == k) ≠ [] :=
      (mem_map_ts_iff_filter tr k).mp htr
    have hm2f : (mergedTable (consolidate ex tr lv) tr []).filter
        (fun x => x.ts == k) =
        ((tr.filter (fun x => x.ts == k)).getLast?).toList := by
      simp only [mergedTable]
      rw [merged_filter]
      congr 1
      rw [List.filter_append, List.filter_append, List.filter_nil,
        List.append_nil]
      exact getLast?_append_right hftr
    have hm1f : (mergedTable ex tr lv).filter (fun x => x.ts == k) =
        ((tr.filter (fun x => x.ts == k)).getLast?).toList := by
      simp only [mergedTable]
      rw [merged_filter]
      congr 1
      have hflv : lv.filter (fun x => x.ts == k) = [] := by
        refine List.filter_eq_nil_iff.mpr (fun r hr hrk => ?_)
        obtain ⟨q, hq, hqk⟩ := List.mem_map.mp htr
        exact hdisj r hr q hq
          ((show r.ts = k by simpa using hrk).trans hqk.symm)
      rw [List.filter_append, List.filter_append, hflv, List.append_nil]
      exact getLast?_append_right hftr
    obtain ⟨y, hy⟩ : ∃ y,
        (tr.filter (fun x => x.ts == k)).getLast? = some y := by
      cases hgl : (tr.filter (fun x => x.ts == k)).getLast? with
      | none => exact absurd (List.getLast?_eq_none_iff.mp hgl) hftr
      | some y => exact ⟨y, rfl⟩
    have hm1mem : (mergedTable ex tr lv).getD i default ∈
        (mergedTable ex tr lv).filter (fun x => x.ts == k) := by
      refine List.mem_filter.mpr ⟨getD_mem _ _ hi, ?_⟩
      rw [hkdef]
      exact beq_self_eq_true _
    have hm2mem : (mergedTable (consolidate ex tr lv) tr []).getD i
        default ∈ (mergedTable (consolidate ex tr lv) tr []).filter
          (fun x => x.ts == k) := by
      refine List.mem_filter.mpr ⟨getD_mem _ _ hi2, ?_⟩
      rw [hkey2]
      exact beq_self_eq_true _
    rw [hm1f, hy] at hm1mem
    rw [hm2f, hy] at hm2mem
    have h1 : (mergedTable ex tr lv).getD i default = y := by
      simpa using hm1mem
    have h2 : (mergedTable (consolidate ex tr lv) tr []).getD i default =
        y := by
      simpa using hm2mem
    rw [h1, h2]
  · right
    have hftr : tr.filter (fun x => x.ts == k) = [] := by
      by_contra h0
      exact htr ((mem_map_ts_iff_filter tr k).mpr h0)
    have hfO : (consolidate ex tr lv).filter
        (fun y => y.ts == ((consolidate ex tr lv).getD i default).ts) =
        [(consolidate ex tr lv).getD i default] :=
      filter_key_of_pairwise _ (consolidate_pairwise ex tr lv) _
        (getD_mem _ _ hiO)
    rw [hkeyO] at hfO
    have hm2f : (mergedTable (consolidate ex tr lv) tr []).filter
        (fun x => x.ts == k) =
        [(consolidate ex tr lv).getD i default] := by
      simp only [mergedTable]
      rw [merged_filter, List.filter_append, List.filter_append,
        List.filter_nil, List.append_nil, hftr, List.append_nil, hfO]
      rfl
    have hm2mem : (mergedTable (consolidate ex tr lv) tr []).getD i
        default ∈ (mergedTable (consolidate ex tr lv) tr []).filter
          (fun x => x.ts == k) := by
      refine List.mem_filter.mpr ⟨getD_mem _ _ hi2, ?_⟩
      rw [hkey2]
      exact beq_self_eq_true _
    rw [hm2f] at hm2mem
    simpa using hm2mem

/-- C4 counterexample: when the first run's live reading collides with a
training-CSV timestamp, the second run is not idempotent: re-running
with the store holding the first output, the same CSV and an empty live
reading replaces the live row's values with the CSV row's values. -/
theorem consolidate_idempotent_cex :
    consolidate
        (consolidate [] [⟨some 1, List.replicate 19 (some 5), []⟩]
          [⟨some 1, List.replicate 19 (some 7), []⟩])
        [⟨some 1, List.replicate 19 (some 5), []⟩] [] ≠
      consolidate [] [⟨some 1, List.replicate 19 (some 5), []⟩]
        [⟨some 1, List.replicate 19 (some 7), []⟩] := by
  decide

/-- C4 (amended): consolidation is idempotent when no new data arrives,
provided no row of the first run's live reading shares a timestamp key
with a training-CSV row: running merge-dedup-sort-fill again with the
store holding the first run's output, the unchanged training CSV and an
empty live reading reproduces the first output exactly. -/
theorem consolidate_idempotent (ex tr lv : List Row)
    (hdisj : ∀ r ∈ lv, ∀ q ∈ tr, r.ts ≠ q.ts) :
    consolidate (consolidate ex tr lv) tr [] = consolidate ex tr lv := by
  have hkeys := idem_keys_eq ex tr lv
  have hlen2 : (mergedTable (consolidate ex tr lv) tr []).length =
      (mergedTable ex tr lv).length := by
    have h := congrArg List.length hkeys
    simpa using h
  have hpt : ∀ i, i < (mergedTable ex tr lv).length →
      (mergedTable (consolidate ex tr lv) tr []).getD i default =
        (mergedTable ex tr lv).getD i default ∨
      (mergedTable (consolidate ex tr lv) tr []).getD i default =
        (fillNum (List.replicate numW 0)
          (mergedTable ex tr lv)).getD i default := by
    intro i hi
    rcases idem_pointwise ex tr lv hdisj i hi with h | h
    · exact Or.inl h
    · right
      rw [h, ← consolidate_eq]
  calc consolidate (consolidate ex tr lv) tr []
      = fillNum (List.replicate numW 0)
          (mergedTable (consolidate ex tr lv) tr []) :=
        consolidate_eq _ _ _
    _ = fillNum (List.replicate numW 0) (mergedTable ex tr lv) :=
        fillNum_mix _ _ _ hlen2 hpt
    _ = consolidate ex tr lv := (consolidate_eq ex tr lv).symm

/-- C4 witness: store empty, CSV row at timestamp 1, live row at the
distinct timestamp 2; the second run reproduces the first output. -/
theorem consolidate_idempotent_witness :
    consolidate
        (consolidate [] [⟨some 1, [some 5], []⟩] [⟨some 2, [some 7], []⟩])
        [⟨some 1, [some 5], []⟩] [] =
      consolidate [] [⟨some 1, [some 5], []⟩] [⟨some 2, [some 7], []⟩] :=
  consolidate_idempotent [] [⟨some 1, [some 5], []⟩]
    [⟨some 2, [some 7], []⟩] (by decide)

/-- C6: if the historical training CSV is absent at its fixed path, the
run fails with the missing-resource error and aborts before any write:
the store is left exactly as it was, with zero upsert attempts made. -/
theorem missing_csv_aborts_before_write (store : List Row) (now : Nat)
    (w : Option Weather) (a : Option Aqi) (ins : Nat → Bool) :
    backfillRun store none now w a ins =
      ⟨store, some BackfillError.missingResource, 0, []⟩ := rfl

/-- Case analysis of the upload retry loop inside a run: attempt count,
sleep schedule, success and failure outcomes. -/
theorem backfill_retry_cases (store train : List Row) (now : Nat)
    (w : Option Weather) (a : Option Aqi) (ins : Nat → Bool) :
    (backfillRun store (some train) now w a ins).attempts ≤ 3 ∧
    (backfillRun store (some train) now w a ins).sleeps =
      List.replicate
        ((backfillRun store (some train) now w a ins).attempts - 1) 8 ∧
    (ins 1 = true →
      (backfillRun store (some train) now w a ins).attempts = 1 ∧
      (backfillRun store (some train) now w a ins).err = none ∧
      (backfillRun store (some train) now w a ins).store =
        consolidate store train (fetchLiveData now w a)) ∧
    (ins 1 = false → ins 2 = true →
      (backfillRun store (some train) now w a ins).attempts = 2 ∧
      (backfillRun store (some train) now w a ins).err = none ∧
      (backfillRun store (some train) now w a ins).store =
        consolidate store train (fetchLiveData now w a)) ∧
    (ins 1 = false → ins 2 = false → ins 3 = true →
      (backfillRun store (some train) now w a ins).attempts = 3 ∧
      (backfillRun store (some train) now w a ins).err = none ∧
      (backfillRun store (some train) now w a ins).store =
        consolidate store train (fetchLiveData now w a)) ∧
    (ins 1 = false → ins 2 = false → ins 3 = false →
      (backfillRun store (some train) now w a ins).err =
        some BackfillError.upsertFailed ∧
      (backfillRun store (some train) now w a ins).attempts = 3 ∧
      (backfillRun store (some train) now w a ins).store = store) := by
  have hsucc : ∀ _ : (retryInsert ins).success = true,
      backfillRun store (some train) now w a ins =
        ⟨consolidate store train (fetchLiveData now w a), none,
          (retryInsert ins).attempts, (retryInsert ins).sleeps⟩ := by
    intro h; simp [backfillRun, h]
  have hfail : ∀ _ : (retryInsert ins).success = false,
      backfillRun store (some train) now w a ins =
        ⟨store, some BackfillError.upsertFailed,
          (retryInsert ins).attempts, (retryInsert ins).sleeps⟩ := by
    intro h; simp [backfillRun, h]
  have key : (retryInsert ins = ⟨1, [], true⟩ ∧ ins 1 = true) ∨
      (retryInsert ins = ⟨2, [8], true⟩ ∧ ins 1 = false ∧ ins 2 = true) ∨
      (retryInsert ins = ⟨3, [8, 8], true⟩ ∧
        ins 1 = false ∧ ins 2 = false ∧ ins 3 = true) ∨
      (retryInsert ins = ⟨3, [8, 8], false⟩ ∧
        ins 1 = false ∧ ins 2 = false ∧ ins 3 = false) := by
    cases h1 : ins 1 <;> cases h2 : ins 2 <;> cases h3 : ins 3 <;>
      simp [retryInsert, retryGo, h1, h2, h3]
  rcases key with ⟨hR, h1⟩ | ⟨hR, h1, h2⟩ | ⟨hR, h1, h2, h3⟩ |
      ⟨hR, h1, h2, h3⟩
  · rw [hsucc (by rw [hR]), hR]
    refine ⟨?_, ?_, ?_, ?_, ?_, ?_⟩ <;> simp_all
  · rw [hsucc (by rw [hR]), hR]
    refine ⟨?_, ?_, ?_, ?_, ?_, ?_⟩ <;> simp_all
  · rw [hsucc (by rw [hR]), hR]
    refine ⟨?_, ?_, ?_, ?_, ?_, ?_⟩ <;> simp_all
  · rw [hfail (by rw [hR]), hR]
    refine ⟨?_, ?_, ?_, ?_, ?_, ?_⟩ <;> simp_all

/-- C7: the store upsert is attempted at most 3 times with a fixed
8-unit sleep between consecutive failed attempts; the first successful
attempt stops the loop (with the consolidated table written and no
error); if all 3 attempts fail the failure propagates and the store is
untouched (no fallback write). -/
theorem upsert_retry_policy (store train : List Row) (now : Nat)
    (w : Option Weather) (a : Option Aqi) (ins : Nat → Bool) :
    (backfillRun store (some train) now w a ins).attempts ≤ 3 ∧
    (backfillRun store (some train) now w a ins).sleeps =
      List.replicate
        ((backfillRun store (some train) now w a ins).attempts - 1) 8 ∧
    (ins 1 = true →
      (backfillRun store (some train) now w a ins).attempts = 1 ∧
      (backfillRun store (some train) now w a ins).err = none ∧
      (backfillRun store (some train) now w a ins).store =
        consolidate store train (fetchLiveData now w a)) ∧
    (ins 1 = false → ins 2 = true →
      (backfillRun store (some train) now w a ins).attempts = 2 ∧
      (backfillRun store (some train) now w a ins).err = none ∧
      (backfillRun store (some train) now w a ins).store =
        consolidate store train (fetchLiveData now w a)) ∧
    (ins 1 = false → ins 2 = false → ins 3 = true →
      (backfillRun store (some train) now w a ins).attempts = 3 ∧
      (backfillRun store (some train) now w a ins).err = none ∧
      (backfillRun store (some train) now w a ins).store =
        consolidate store train (fetchLiveData now w a)) ∧
    (ins 1 = false → ins 2 = false → ins 3 = false →
      (backfillRun store (some train) now w a ins).err =
        some BackfillError.upsertFailed ∧
      (backfillRun store (some train) now w a ins).attempts = 3 ∧
      (backfillRun store (some train) now w a ins).store = store) :=
  backfill_retry_cases store train now w a ins

/-- C7 witness: with inserts failing on attempt 1 and succeeding on
attempt 2, the run makes exactly 2 attempts, sleeps once for 8 units,
and ends with no error. -/
theorem upsert_retry_policy_witness :
    (backfillRun [] (some []) 0 none none (fun k => decide (k = 2))).attempts = 2 ∧
    (backfillRun [] (some []) 0 none none (fun k => decide (k = 2))).err = none ∧
    (backfillRun [] (some []) 0 none none (fun k => decide (k = 2))).sleeps = [8] := by
  have h := upsert_retry_policy [] [] 0 none none (fun k => decide (k = 2))
  have h2 := h.2.2.2.1 (by decide) (by decide)
  exact ⟨h2.1, h2.2.1, by rw [h.2.1, h2.1]; rfl⟩

/-- C8 counterexample: a weather payload that is non-empty but lacks
every expected field (as a JSON body like a bare status object would
produce), with a well-formed air-quality payload.  Contrary to the
claim, the live reading is not treated as empty: one row for the current
instant is built and lands in the consolidated output. -/
theorem live_failure_degrades_cex :
    fetchLiveData 0 (some ⟨none, none, none⟩) (some ⟨some 50, none⟩) ≠ [] ∧
    (consolidate [] []
        (fetchLiveData 0 (some ⟨none, none, none⟩)
          (some ⟨some 50, none⟩))).countP (fun x => x.ts == some 0) = 1 := by
  refine ⟨by decide, by decide⟩

/-- C8 (amended): if either provider call fails or delivers an empty
payload (for the air-quality provider, one without its `data` object) —
the conditions under which the code's emptiness test fires — the live
reading is empty and the run is not aborted: consolidation completes on
the store and training CSV alone, the output has no row for the current
instant when neither input supplied one, and a succeeding upsert ends
the run without error. -/
theorem live_failure_degrades (store train : List Row) (now : Nat)
    (w : Option Weather) (a : Option Aqi) (ins : Nat → Bool)
    (hwa : w = none ∨ a = none)
    (hnow : ∀ r ∈ store ++ train, r.ts ≠ some now) (hins : ins 1 = true) :
    fetchLiveData now w a = [] ∧
    (backfillRun store (some train) now w a ins).err = none ∧
    (backfillRun store (some train) now w a ins).store =
      consolidate store train [] ∧
    (backfillRun store (some train) now w a ins).store.countP
      (fun x => x.ts == some now) = 0 := by
  have hlv : fetchLiveData now w a = [] := by
    rcases hwa with hw | ha
    · subst hw; cases a <;> rfl
    · subst ha; cases w <;> rfl
  have hpol := (backfill_retry_cases store train now w a ins).2.2.1 hins
  refine ⟨hlv, hpol.2.1, ?_, ?_⟩
  · rw [hpol.2.2, hlv]
  · rw [hpol.2.2, hlv]
    have hfe : (store ++ train ++ ([] : List Row)).filter
        (fun x => x.ts == some now) = [] := by
      refine List.filter_eq_nil_iff.mpr (fun r hr hrk => ?_)
      have hr2 : r ∈ store ++ train := by simpa using hr
      exact hnow r hr2 (by simpa using hrk)
    have hmf : (mergedTable store train []).filter
        (fun x => x.ts == some now) = [] := by
      rw [mergedTable, merged_filter (store ++ train ++ []) (some now), hfe]
      rfl
    have hm : (mergedTable store train []).countP
        (fun x => x.ts == some now) = 0 := by
      rw [List.countP_eq_length_filter, hmf]
      rfl
    exact (countP_ts_eq_of_map_ts (some now)
      (consolidate_map_ts store train [])).trans hm

/-- C8 witness: weather fetch failed, air-quality succeeded, store and
CSV rows at timestamps 1 and 2, current instant 99, insert succeeding
at once. -/
theorem live_failure_degrades_witness :
    fetchLiveData 99 none (some ⟨some 50, none⟩) = [] ∧
    (backfillRun [⟨some 1, [some 4], []⟩] (some [⟨some 2, [none], []⟩]) 99
      none (some ⟨some 50, none⟩) (fun _ => true)).err = none ∧
    (backfillRun [⟨some 1, [some 4], []⟩] (some [⟨some 2, [none], []⟩]) 99
      none (some ⟨some 50, none⟩) (fun _ => true)).store =
      consolidate [⟨some 1, [some 4], []⟩] [⟨some 2, [none], []⟩] [] ∧
    (backfillRun [⟨some 1, [some 4], []⟩] (some [⟨some 2, [none], []⟩]) 99
      none (some ⟨some 50, none⟩) (fun _ => true)).store.countP
      (fun x => x.ts == some 99) = 0 :=
  live_failure_degrades [⟨some 1, [some 4], []⟩] [⟨some 2, [none], []⟩] 99
    none (some ⟨some 50, none⟩) (fun _ => true) (Or.inl rfl) (by decide) rfl

/-- C10: `fetch_live_data` returns either an empty table or exactly one
row; in the one-row case the timestamp and the calendar columns hour
(index 15), day (16), month (17) and weekday (18) are all derived from
the same single captured instant `now`, so each calendar field equals
the corresponding component of the row's own timestamp. -/
theorem live_single_row_calendar (now : Nat) (w : Option Weather)
    (a : Option Aqi) :
    fetchLiveData now w a = [] ∨
    ∃ r, fetchLiveData now w a = [r] ∧ r.ts = some now ∧
      r.num.getD 15 none = some (Int.ofNat (hourOf now)) ∧
      r.num.getD 16 none = some (Int.ofNat (dayOf now)) ∧
      r.num.getD 17 none = some (Int.ofNat (monthOf now)) ∧
      r.num.getD 18 none = some (Int.ofNat (weekdayOf now)) := by
  match w, a with
  | none, _ => exact Or.inl rfl
  | some _, none => exact Or.inl rfl
  | some wp, some ap => exact Or.inr ⟨_, rfl, rfl, rfl, rfl, rfl, rfl⟩

end AqiForecast
